import Mathlib

/-!
# Debug console driver (`system/udev/console/console.c`)

A shallow embedding of the console driver's ring buffer (`fifo`,
`fifo_read`, `fifo_write`), of one iteration of the reader task
(`debug_reader`) and of the device entry points `console_read` and
`console_write`, followed by the properties proved about them.

Conventions of the embedding:

* `uint8_t` is `Byte = Fin 256`; `uint32_t` indices are `Nat`, with the
  wrap-around of `head + 1` / `tail + 1` written `% 2 ^ 32` and the mask
  `& FIFOMASK` written with `&&&`;
* `mx_status_t` and `ssize_t` results are `Int`;
* the global `fifo` is passed explicitly (the mutex is not modelled: every
  operation below is one critical section);
* memory reached through a `uint8_t*` is a function from the offset to the
  byte stored there.
-/

namespace Console

/-- A `uint8_t`. -/
abbrev Byte := Fin 256

/-- The `#define FIFOSIZE 256`. -/
def FIFOSIZE : Nat := 256

/-- The `#define FIFOMASK (FIFOSIZE - 1)`. -/
def FIFOMASK : Nat := FIFOSIZE - 1

/-- Modelled from the spec: the success status `NO_ERROR` of
`magenta/types.h` (not in this source file) is the zero status; `console_read`
tests `if (fifo_read(data)) break;`, so exactly the non-zero statuses are
failures. -/
def NO_ERROR : Int := 0

/-- The static `fifo` object without its lock: `data[FIFOSIZE]`, `head`, `tail`. -/
structure Fifo where
  data : List Byte
  head : Nat
  tail : Nat
deriving DecidableEq

/-- The state of `fifo` at program start: static storage is zero-initialised. -/
def fifo_init : Fifo :=
  { data := List.replicate FIFOSIZE 0, head := 0, tail := 0 }

/-- The array has its declared size and both indices are inside it. -/
def Fifo.WF (s : Fifo) : Prop :=
  s.data.length = FIFOSIZE ∧ s.head < FIFOSIZE ∧ s.tail < FIFOSIZE

instance (s : Fifo) : Decidable s.WF := by
  unfold Fifo.WF; exact inferInstance

/-- The function `fifo_read(uint8_t* out)`: the arguments are the buffer and the byte
currently stored at `*out`; the result is the status, the byte stored at
`*out` afterwards, and the buffer afterwards. -/
def fifo_read (s : Fifo) (out : Byte) : Int × Byte × Fifo :=
  if s.head = s.tail then
    (-1, out, s)
  else
    (NO_ERROR, s.data.getD s.tail 0,
      { s with tail := ((s.tail + 1) % 2 ^ 32) &&& FIFOMASK })

/-- The function `fifo_write(uint8_t x)`. -/
def fifo_write (x : Byte) (s : Fifo) : Fifo :=
  let next := ((s.head + 1) % 2 ^ 32) &&& FIFOMASK
  if next ≠ s.tail then
    { s with data := s.data.set s.head x, head := next }
  else
    s

/-- The shared state the driver's threads see: the ring buffer and the
`DEV_STATE_READABLE` bit of the device (`device_state_set` sets it,
`device_state_clr` clears it). -/
structure Dev where
  fifo : Fifo
  readable : Bool
deriving DecidableEq

/-- The state before `console_bind` has spawned the reader: empty buffer, the
device not readable. -/
def dev_init : Dev := { fifo := fifo_init, readable := false }

/-- One iteration of the `for (;;)` loop of `debug_reader`: `ret` is what
`mx_debug_read(.., &ch, 1)` returned and `ch` the byte it left in `ch`. -/
def debug_reader_iter (ret : Int) (ch : Byte) (d : Dev) : Dev :=
  if ret = 1 then
    let readable := if d.fifo.head = d.fifo.tail then true else d.readable
    { fifo := fifo_write ch d.fifo, readable := readable }
  else
    d

/-- Caller memory reached from a `uint8_t*`: offset to byte. -/
abbrev Mem := Nat → Byte

/-- The loop `while (count-- > 0) { if (fifo_read(data)) break; data++; }` of
`console_read`: `pos` is `data - (uint8_t*)buf`. The result is the buffer,
the caller's memory and `pos` when the loop exits. -/
def console_read_loop : Nat → Fifo → Mem → Nat → Fifo × Mem × Nat
  | 0, s, buf, pos => (s, buf, pos)
  | count + 1, s, buf, pos =>
    match fifo_read s (buf pos) with
    | (status, out, s') =>
      if status ≠ 0 then (s', Function.update buf pos out, pos)
      else console_read_loop count s' (Function.update buf pos out) (pos + 1)

/-- The result of `console_read`: the returned `ssize_t`, the caller's memory
and the shared state afterwards. -/
structure ReadResult where
  ret : Int
  buf : Mem
  dev : Dev

/-- The function `console_read(ctx, buf, count, off)`. `ERR_SHOULD_WAIT` is the constant
of `magenta/types.h`, not in this source file, taken as a parameter. `ctx`
only supplies the device whose state bit is cleared; `off` is unused. -/
def console_read (ERR_SHOULD_WAIT : Int) (d : Dev) (buf : Mem) (count : Nat) : ReadResult :=
  match console_read_loop count d.fifo buf 0 with
  | (s', buf', pos) =>
    let readable := if s'.head = s'.tail then false else d.readable
    let actual : Int := (pos : Int)
    { ret := if actual ≠ 0 then actual else ERR_SHOULD_WAIT,
      buf := buf',
      dev := { fifo := s', readable := readable } }

/-- The function `console_write(ctx, buf, count, off)`: `mx_debug_write` is the external
sink; `calls` records the sink invocations made so far, each with its buffer
and count. The result is the returned `ssize_t`, the invocation record and
the shared state afterwards. -/
def console_write (mx_debug_write : Mem → Nat → Int) (calls : List (Mem × Nat))
    (d : Dev) (_ctx : Nat) (buf : Mem) (count : Nat) (_off : Nat) :
    Int × List (Mem × Nat) × Dev :=
  (mx_debug_write buf count, calls ++ [(buf, count)], d)

/-! ### Specification-level vocabulary -/

/-- Number of bytes held: `(head - tail) mod FIFOSIZE`. -/
def Fifo.count (s : Fifo) : Nat := (s.head + FIFOSIZE - s.tail) % FIFOSIZE

/-- The buffered bytes in FIFO order: `data[tail]`, `data[tail+1 mod 256]`, ...
up to `head`. -/
def Fifo.contents (s : Fifo) : List Byte :=
  (List.range s.count).map (fun k => s.data.getD ((s.tail + k) % FIFOSIZE) 0)

/-- Full under the reserved-slot scheme: `(head + 1) mod 256 == tail`. -/
def Fifo.full (s : Fifo) : Prop := (s.head + 1) % FIFOSIZE = s.tail

instance (s : Fifo) : Decidable s.full := by
  unfold Fifo.full; exact inferInstance

/-- Push the bytes of `bs` in order, with no pop in between. -/
def push_all (bs : List Byte) (s : Fifo) : Fifo :=
  bs.foldl (fun s b => fifo_write b s) s

/-- Call `fifo_read` until it reports empty, collecting the popped bytes;
`fuel` bounds the number of calls, and `none` means the bound was reached
before the buffer reported empty. -/
def drain : Nat → Fifo → Option (List Byte × Fifo)
  | 0, _ => none
  | fuel + 1, s =>
    match fifo_read s 0 with
    | (status, out, s') =>
      if status ≠ 0 then some ([], s')
      else (drain fuel s').map (fun r => (out :: r.1, r.2))

/-- The bytes a `console_read` call hands to its caller: the first `ret`
bytes of the caller's buffer when `ret` is a count, none when `ret` is a
negative status. -/
def ReadResult.delivered (r : ReadResult) : List Byte :=
  (List.range r.ret.toNat).map r.buf

/-- The readiness flag says exactly whether the buffer is non-empty. -/
def Dev.ready_iff_nonempty (d : Dev) : Prop :=
  d.readable = true ↔ d.fifo.head ≠ d.fifo.tail

instance (d : Dev) : Decidable d.ready_iff_nonempty := by
  unfold Dev.ready_iff_nonempty; exact inferInstance

/-- The two operations on the shared state: one iteration of the reader task
(with what `mx_debug_read` returned and the byte it produced) and one
`console_read` call (with the caller's memory and the requested count). -/
inductive Op where
  | reader (ret : Int) (ch : Byte)
  | read (buf : Mem) (count : Nat)

/-- The shared state after one operation. -/
def step (E : Int) (d : Dev) : Op → Dev
  | .reader ret ch => debug_reader_iter ret ch d
  | .read buf count => (console_read E d buf count).dev

/-- The shared state after a sequential interleaving of operations. -/
def run (E : Int) (ops : List Op) (d : Dev) : Dev :=
  ops.foldl (step E) d

/-- The bytes returned by the reads of an interleaving, concatenated in call
order. -/
def delivered (E : Int) : List Op → Dev → List Byte
  | [], _ => []
  | .reader ret ch :: ops, d => delivered E ops (debug_reader_iter ret ch d)
  | .read buf count :: ops, d =>
    (console_read E d buf count).delivered ++
      delivered E ops (console_read E d buf count).dev

/-- The bytes the reader task received, in order: one per iteration in which
`mx_debug_read` returned 1. -/
def pushed : List Op → List Byte
  | [] => []
  | .reader ret ch :: ops => if ret = 1 then ch :: pushed ops else pushed ops
  | .read _ _ :: ops => pushed ops

/-- The received bytes whose push did not find the buffer full, in order. -/
def accepted (E : Int) : List Op → Dev → List Byte
  | [], _ => []
  | .reader ret ch :: ops, d =>
    if ret = 1 ∧ ¬ d.fifo.full then ch :: accepted E ops (debug_reader_iter ret ch d)
    else accepted E ops (debug_reader_iter ret ch d)
  | .read buf count :: ops, d => accepted E ops (console_read E d buf count).dev

/-- A call of one of the two ring-buffer functions: `fifo_write(x)`, or
`fifo_read(out)` with the byte stored at `*out` beforehand. -/
inductive FifoOp where
  | write (x : Byte)
  | read (out : Byte)

/-- The buffer after one ring-buffer call. -/
def fifo_step (s : Fifo) : FifoOp → Fifo
  | .write x => fifo_write x s
  | .read out => (fifo_read s out).2.2

/-- The buffer after a sequence of ring-buffer calls. -/
def fifo_run (ops : List FifoOp) (s : Fifo) : Fifo :=
  ops.foldl fifo_step s

/-- The end-to-end scenario's state after the reader task has pushed
`0x41, 0x42, 0x43` from the initial state. -/
def scenario_dev : Dev :=
  debug_reader_iter 1 0x43 (debug_reader_iter 1 0x42 (debug_reader_iter 1 0x41 dev_init))

/-- An empty buffer whose indices sit two slots before the wrap-around. -/
def wrap_fifo : Fifo := { data := List.replicate FIFOSIZE 0, head := 254, tail := 254 }

/-- A full buffer: `head + 1 == tail` modulo 256. -/
def full_fifo : Fifo := { data := List.replicate FIFOSIZE 7, head := 255, tail := 0 }

/-- A buffer holding the single byte `0x41`. -/
def one_fifo : Fifo := { data := 0x41 :: List.replicate 255 0, head := 1, tail := 0 }

/-- More bytes than the buffer can hold: a `0` followed by 255 times `1`. -/
def overlong : List Byte := 0 :: List.replicate 255 1

/-! ### `console_bind` and its external calls -/

/-- The external calls `console_bind` makes, in the order it makes them;
`printf` carries the status it prints. -/
inductive BindEvent where
  | malloc
  | device_create
  | device_add
  | printf (status : Int)
  | device_destroy
  | free
  | thrd_create
deriving DecidableEq

/-- The function `console_bind(drv, parent, cookie)`. The outcomes of its external calls
are arguments: `malloc_ok` says whether `malloc` returned a non-null pointer,
`create_status` and `add_status` are what `device_create` and `device_add`
return. `ERR_NO_MEMORY` is the constant of `magenta/types.h`, not in this
source file, taken as a parameter. The result is the returned status and the
external calls made. -/
def console_bind (ERR_NO_MEMORY : Int) (malloc_ok : Bool) (create_status add_status : Int) :
    Int × List BindEvent :=
  if ¬ malloc_ok then
    (ERR_NO_MEMORY, [.malloc])
  else if create_status ≠ NO_ERROR then
    (create_status, [.malloc, .device_create, .free])
  else if add_status ≠ NO_ERROR then
    (add_status,
      [.malloc, .device_create, .device_add, .printf add_status, .device_destroy, .free])
  else
    (NO_ERROR, [.malloc, .device_create, .device_add, .thrd_create])

/-! ### More specification-level vocabulary -/

/-- The loop of `console_read` run for at most `fuel` evaluations of its
condition `count-- > 0`; `none` means the loop had not exited by then. -/
def console_read_loop_bounded : Nat → Nat → Fifo → Mem → Nat → Option (Fifo × Mem × Nat)
  | 0, _, _, _, _ => none
  | fuel + 1, count, s, buf, pos =>
    if count > 0 then
      match fifo_read s (buf pos) with
      | (status, out, s') =>
        if status ≠ 0 then some (s', Function.update buf pos out, pos)
        else console_read_loop_bounded fuel (count - 1) s' (Function.update buf pos out)
          (pos + 1)
    else some (s, buf, pos)

/-- The largest `size_t` of the 64-bit target. -/
def SIZE_MAX : Nat := 2 ^ 64 - 1

/-- The bounded list queue of the refinement claim, capacity 255: a push
appends when fewer than 255 bytes are held and does nothing otherwise. -/
def queue_write (x : Byte) (L : List Byte) : List Byte :=
  if L.length < 255 then L ++ [x] else L

/-- The bounded list queue of the refinement claim: a pop removes and returns
the first byte, or reports empty. -/
def queue_read : List Byte → Option Byte × List Byte
  | [] => (none, [])
  | x :: L => (some x, L)

/-- The list queue after a sequence of calls. -/
def queue_run : List FifoOp → List Byte → List Byte
  | [], L => L
  | .write x :: ops, L => queue_run ops (queue_write x L)
  | .read _ :: ops, L => queue_run ops (queue_read L).2

/-- What the calls of a sequence return on the ring buffer: for each
`fifo_read`, its status and the byte at `*out` afterwards (`fifo_write`
returns nothing). -/
def fifo_results : List FifoOp → Fifo → List (Int × Byte)
  | [], _ => []
  | .write x :: ops, s => fifo_results ops (fifo_write x s)
  | .read out :: ops, s =>
    ((fifo_read s out).1, (fifo_read s out).2.1) :: fifo_results ops (fifo_read s out).2.2

/-- How a pop of the list queue shows at the interface of `fifo_read`: a popped
byte is `NO_ERROR` with the byte stored to `*out`, empty is `-1` with `*out`
untouched. -/
def queue_report (out : Byte) : Option Byte → Int × Byte
  | some x => (NO_ERROR, x)
  | none => (-1, out)

/-- What the same calls return on the list queue. -/
def queue_results : List FifoOp → List Byte → List (Int × Byte)
  | [], _ => []
  | .write x :: ops, L => queue_results ops (queue_write x L)
  | .read out :: ops, L =>
    queue_report out (queue_read L).1 :: queue_results ops (queue_read L).2

/-- Any of the four operations that touch the ring buffer. -/
inductive Call where
  | fifo_write (x : Byte)
  | fifo_read (out : Byte)
  | reader (ret : Int) (ch : Byte)
  | console_read (buf : Mem) (count : Nat)

/-- The shared state after one such operation. -/
def call_step (E : Int) (d : Dev) : Call → Dev
  | .fifo_write x => { d with fifo := fifo_write x d.fifo }
  | .fifo_read out => { d with fifo := (fifo_read d.fifo out).2.2 }
  | .reader ret ch => debug_reader_iter ret ch d
  | .console_read buf count => (console_read E d buf count).dev

/-- The shared state after a sequence of such operations. -/
def call_run (E : Int) (calls : List Call) (d : Dev) : Dev :=
  calls.foldl (call_step E) d

/-- A device whose buffer holds one byte and is marked readable. -/
def one_dev : Dev := { fifo := one_fifo, readable := true }

/-- A device whose buffer is full and is marked readable. -/
def full_dev : Dev := { fifo := full_fifo, readable := true }

/-! ### Arithmetic of the wrapping indices -/

theorem next_index (n : Nat) : ((n + 1) % 2 ^ 32) &&& FIFOMASK = (n + 1) % 256 := by
  have h : ((n + 1) % 2 ^ 32) &&& (2 ^ 8 - 1) = ((n + 1) % 2 ^ 32) % 2 ^ 8 :=
    Nat.and_pow_two_sub_one_eq_mod _ 8
  have e : FIFOMASK = 2 ^ 8 - 1 := by decide
  rw [e, h]
  omega

theorem fifo_read_empty (s : Fifo) (out : Byte) (h : s.head = s.tail) :
    fifo_read s out = (-1, out, s) := by
  simp [fifo_read, h]

theorem fifo_read_nonempty (s : Fifo) (out : Byte) (h : s.head ≠ s.tail) :
    fifo_read s out =
      (0, s.data.getD s.tail 0, { s with tail := (s.tail + 1) % 256 }) := by
  unfold fifo_read
  rw [next_index]
  simp [h, NO_ERROR]

theorem fifo_write_full (x : Byte) (s : Fifo) (h : s.full) : fifo_write x s = s := by
  unfold Fifo.full FIFOSIZE at h
  unfold fifo_write
  rw [next_index]
  simp [h]

theorem fifo_write_not_full (x : Byte) (s : Fifo) (h : ¬ s.full) :
    fifo_write x s = { s with data := s.data.set s.head x, head := (s.head + 1) % 256 } := by
  unfold Fifo.full FIFOSIZE at h
  unfold fifo_write
  rw [next_index]
  simp [h]

theorem fifo_write_WF (x : Byte) (s : Fifo) (h : s.WF) : (fifo_write x s).WF := by
  by_cases hf : s.full
  · rw [fifo_write_full x s hf]; exact h
  · rw [fifo_write_not_full x s hf]
    obtain ⟨h1, h2, h3⟩ := h
    refine ⟨?_, ?_, h3⟩
    · simpa using h1
    · show (s.head + 1) % 256 < FIFOSIZE
      unfold FIFOSIZE; omega

theorem count_lt (s : Fifo) : s.count < 256 := by
  unfold Fifo.count FIFOSIZE; omega

theorem length_contents (s : Fifo) : s.contents.length = s.count := by
  simp [Fifo.contents]

theorem count_eq_zero_iff (s : Fifo) (h : s.WF) : s.count = 0 ↔ s.head = s.tail := by
  obtain ⟨_, h2, h3⟩ := h
  unfold Fifo.count FIFOSIZE at *
  omega

theorem full_iff_count (s : Fifo) (h : s.WF) : s.full ↔ s.count = 255 := by
  obtain ⟨_, h2, h3⟩ := h
  unfold Fifo.full Fifo.count FIFOSIZE at *
  omega

theorem contents_eq_nil_iff (s : Fifo) (h : s.WF) : s.contents = [] ↔ s.head = s.tail := by
  rw [← count_eq_zero_iff s h, ← length_contents, List.length_eq_zero]

/-- Popping one byte: the byte at `tail` is the head of the contents and the
rest stays. -/
theorem contents_pop (s : Fifo) (h : s.WF) (hne : s.head ≠ s.tail) :
    s.contents = s.data.getD s.tail 0 ::
      Fifo.contents { s with tail := (s.tail + 1) % 256 } := by
  obtain ⟨_, h2, h3⟩ := h
  have hc : s.count = Fifo.count { s with tail := (s.tail + 1) % 256 } + 1 := by
    unfold Fifo.count FIFOSIZE at *
    simp only
    omega
  unfold Fifo.contents
  rw [hc, List.range_succ_eq_map]
  simp only [List.map_cons, List.map_map]
  congr 1
  · congr 1
    unfold FIFOSIZE at *; omega
  · apply List.map_congr_left
    intro k _
    simp only [Function.comp]
    congr 1
    unfold FIFOSIZE at *; omega

/-- Pushing one byte onto a buffer that is not full appends it to the contents. -/
theorem contents_push (x : Byte) (s : Fifo) (h : s.WF) (hf : ¬ s.full) :
    (fifo_write x s).contents = s.contents ++ [x] := by
  rw [fifo_write_not_full x s hf]
  obtain ⟨h1, h2, h3⟩ := h
  have hc : Fifo.count { s with data := s.data.set s.head x, head := (s.head + 1) % 256 }
      = s.count + 1 := by
    unfold Fifo.full Fifo.count FIFOSIZE at *
    simp only
    omega
  unfold Fifo.contents
  rw [hc, List.range_succ]
  simp only [List.map_append, List.map_cons, List.map_nil]
  congr 1
  · apply List.map_congr_left
    intro k hk
    have hk' : k < s.count := List.mem_range.mp hk
    have hne : s.head ≠ (s.tail + k) % FIFOSIZE := by
      unfold Fifo.count FIFOSIZE at *; omega
    simp only [List.getD_eq_getElem?_getD, List.getElem?_set_ne hne]
  · have he : (s.tail + s.count) % FIFOSIZE = s.head := by
      unfold Fifo.count FIFOSIZE at *; omega
    have hl : s.head < s.data.length := by rw [h1]; exact h2
    simp only [he, List.getD_eq_getElem?_getD, List.getElem?_set_self hl, Option.getD_some]

theorem pop_WF (s : Fifo) (h : s.WF) : Fifo.WF { s with tail := (s.tail + 1) % 256 } := by
  obtain ⟨h1, h2, _⟩ := h
  refine ⟨h1, h2, ?_⟩
  show (s.tail + 1) % 256 < FIFOSIZE
  unfold FIFOSIZE; omega

theorem count_pop (s : Fifo) (h : s.WF) (hne : s.head ≠ s.tail) :
    s.count = Fifo.count { s with tail := (s.tail + 1) % 256 } + 1 := by
  have := contents_pop s h hne
  have hl := congrArg List.length this
  simpa [length_contents] using hl

theorem count_push (x : Byte) (s : Fifo) (h : s.WF) (hf : ¬ s.full) :
    (fifo_write x s).count = s.count + 1 := by
  have hl := congrArg List.length (contents_push x s h hf)
  simpa [length_contents] using hl

/-- A drain with enough fuel pops exactly the contents, in order, and stops
at the empty report with `tail` caught up with `head`. -/
theorem drain_contents (fuel : Nat) (s : Fifo) (h : s.WF) (hc : s.count < fuel) :
    drain fuel s = some (s.contents, { s with tail := s.head }) := by
  induction fuel generalizing s with
  | zero => omega
  | succ fuel ih =>
    by_cases he : s.head = s.tail
    · have hn : s.contents = [] := (contents_eq_nil_iff s h).mpr he
      have hs : ({ s with tail := s.head } : Fifo) = s := by
        cases s; simp_all
      simp [drain, fifo_read_empty s 0 he, hn, hs]
    · have hp := count_pop s h he
      have := ih { s with tail := (s.tail + 1) % 256 } (pop_WF s h) (by omega)
      simp [drain, fifo_read_nonempty s 0 he, this, contents_pop s h he]

/-- Pushing a sequence keeps as many leading bytes as there is room for. -/
theorem push_all_contents (bs : List Byte) (s : Fifo) (h : s.WF) :
    (push_all bs s).WF ∧
      (push_all bs s).contents = s.contents ++ bs.take (255 - s.count) := by
  induction bs generalizing s with
  | nil => simp [push_all, h]
  | cons b bs ih =>
    have hstep : push_all (b :: bs) s = push_all bs (fifo_write b s) := rfl
    rw [hstep]
    by_cases hf : s.full
    · have hc := (full_iff_count s h).mp hf
      have := ih s h
      rw [fifo_write_full b s hf]
      simpa [hc] using this
    · have hc : s.count ≠ 255 := fun e => hf ((full_iff_count s h).mpr e)
      have hlt := count_lt s
      obtain ⟨hw, hcont⟩ := ih (fifo_write b s) (fifo_write_WF b s h)
      refine ⟨hw, ?_⟩
      rw [hcont, contents_push b s h hf, count_push b s h hf]
      have e : 255 - s.count = (255 - (s.count + 1)) + 1 := by omega
      rw [e, List.take_succ_cons]
      simp

theorem fifo_init_WF : fifo_init.WF :=
  ⟨List.length_replicate _ _, by decide, by decide⟩

theorem fifo_init_contents : fifo_init.contents = [] :=
  (contents_eq_nil_iff fifo_init fifo_init_WF).mpr rfl

/-- Advancing `tail` by `k` stored bytes drops the `k` oldest bytes. -/
theorem contents_advance (k : Nat) (s : Fifo) (h : s.WF) (hk : k ≤ s.count) :
    Fifo.contents { s with tail := (s.tail + k) % 256 } = s.contents.drop k := by
  induction k generalizing s with
  | zero =>
    have : (s.tail + 0) % 256 = s.tail := by
      have := h.2.2; unfold FIFOSIZE at this; omega
    rw [this]; simp
  | succ k ih =>
    have hne : s.head ≠ s.tail := by
      intro e
      have := (count_eq_zero_iff s h).mpr e
      omega
    have hp := count_pop s h hne
    have := ih { s with tail := (s.tail + 1) % 256 } (pop_WF s h) (by omega)
    rw [contents_pop s h hne, List.drop_succ_cons, ← this]
    have e : ((s.tail + 1) % 256 + k) % 256 = (s.tail + (k + 1)) % 256 := by omega
    simp only [e]

theorem advance_WF (k : Nat) (s : Fifo) (h : s.WF) :
    Fifo.WF { s with tail := (s.tail + k) % 256 } := by
  obtain ⟨h1, h2, _⟩ := h
  refine ⟨h1, h2, ?_⟩
  show (s.tail + k) % 256 < FIFOSIZE
  unfold FIFOSIZE; omega

theorem loop_exit_shape (s : Fifo) (buf : Mem) (pos : Nat) (h : s.WF) :
    (s, buf, pos) =
      (({ s with tail := (s.tail + 0) % 256 } : Fifo),
        (fun i => if pos ≤ i ∧ i < pos + 0 then s.contents.getD (i - pos) 0 else buf i),
        pos + 0) := by
  have ht : (s.tail + 0) % 256 = s.tail := by
    have := h.2.2; unfold FIFOSIZE at this; omega
  refine Prod.ext ?_ (Prod.ext ?_ rfl)
  · rw [ht]
  · funext i
    have : ¬ (pos ≤ i ∧ i < pos + 0) := by omega
    simp only [if_neg this]

/-- What the drain loop of `console_read` computes: it pops
`k = min count n` bytes, stores them at `pos .. pos + k - 1` and leaves the
rest of the caller's memory alone. -/
theorem console_read_loop_eq (count : Nat) (s : Fifo) (buf : Mem) (pos : Nat) (h : s.WF) :
    console_read_loop count s buf pos =
      ({ s with tail := (s.tail + min count s.count) % 256 },
        (fun i => if pos ≤ i ∧ i < pos + min count s.count
          then s.contents.getD (i - pos) 0 else buf i),
        pos + min count s.count) := by
  induction count generalizing s buf pos with
  | zero =>
    rw [Nat.zero_min]
    exact loop_exit_shape s buf pos h
  | succ c ih =>
    by_cases he : s.head = s.tail
    · have hz : s.count = 0 := (count_eq_zero_iff s h).mpr he
      rw [hz, Nat.min_zero, ← loop_exit_shape s buf pos h]
      simp [console_read_loop, fifo_read_empty s _ he]
    · have hp := count_pop s h he
      have hcont := contents_pop s h he
      have hm : min (c + 1) s.count =
          min c (Fifo.count { s with tail := (s.tail + 1) % 256 }) + 1 := by
        rw [hp]; omega
      simp only [console_read_loop, fifo_read_nonempty s _ he, ne_eq, not_true_eq_false,
        if_false]
      rw [ih _ _ _ (pop_WF s h), hm]
      generalize min c (Fifo.count { s with tail := (s.tail + 1) % 256 }) = k
      refine Prod.ext ?_ (Prod.ext ?_ ?_)
      · have e : ((s.tail + 1) % 256 + k) % 256 = (s.tail + (k + 1)) % 256 := by omega
        simp only [e]
      · funext i
        simp only
        by_cases hi : i = pos
        · subst hi
          rw [hcont]
          simp
        · rw [hcont, Function.update_noteq hi]
          by_cases hlt : pos + 1 ≤ i ∧ i < pos + 1 + k
          · have hlt' : pos ≤ i ∧ i < pos + (k + 1) := by omega
            have e : i - pos = (i - (pos + 1)) + 1 := by omega
            rw [if_pos hlt, if_pos hlt', e, List.getD_cons_succ]
          · have hlt' : ¬ (pos ≤ i ∧ i < pos + (k + 1)) := by omega
            rw [if_neg hlt, if_neg hlt']
      · simp only; omega

/-- The function `console_read` in closed form on a well-formed buffer. -/
theorem console_read_eq (E : Int) (d : Dev) (buf : Mem) (count : Nat) (h : d.fifo.WF) :
    console_read E d buf count =
      { ret := if min count d.fifo.count ≠ 0 then (min count d.fifo.count : Nat) else E,
        buf := fun i => if i < min count d.fifo.count then d.fifo.contents.getD i 0 else buf i,
        dev :=
          { fifo := { d.fifo with tail := (d.fifo.tail + min count d.fifo.count) % 256 },
            readable :=
              if d.fifo.head = (d.fifo.tail + min count d.fifo.count) % 256 then false
              else d.readable } } := by
  unfold console_read
  rw [console_read_loop_eq count d.fifo buf 0 h]
  simp only [Nat.zero_add, Nat.zero_le, true_and, Nat.sub_zero, ne_eq, Int.natCast_eq_zero]

theorem empty_after_drain (s : Fifo) (out : Byte) :
    (fifo_read { s with tail := s.head } out).1 = -1 := by
  rw [fifo_read_empty _ _ rfl]

/-- Pushing onto an empty buffer and draining pops the first 255 pushed bytes. -/
theorem push_then_drain_contents (bs : List Byte) (s : Fifo) (fuel : Nat) (hwf : s.WF)
    (hempty : s.head = s.tail) (hfuel : 255 < fuel) :
    ∃ s', drain fuel (push_all bs s) = some (bs.take 255, s') ∧
      (push_all bs s).contents = bs.take 255 := by
  obtain ⟨hw, hc⟩ := push_all_contents bs s hwf
  have hz : s.count = 0 := (count_eq_zero_iff s hwf).mpr hempty
  have hn : s.contents = [] := (contents_eq_nil_iff s hwf).mpr hempty
  have hb : (push_all bs s).contents = bs.take 255 := by
    rw [hc, hn, hz, List.nil_append]
  have hcount : (push_all bs s).count < fuel := by
    have := count_lt (push_all bs s); omega
  refine ⟨{ push_all bs s with tail := (push_all bs s).head }, ?_, hb⟩
  rw [drain_contents fuel _ hw hcount, hb]

/-! ### The ring buffer: pushes followed by a drain -/

/-- C1: from an empty ring buffer with in-range indices (`head == tail`, at
any index, so also when the stored range wraps from 255 to 0), pushing fewer
than `FIFOSIZE - 1 = 255` bytes with `fifo_write` and then calling
`fifo_read` until it reports empty pops exactly the pushed bytes in their
original order; the call after the last pop reports empty (`-1`). -/
theorem push_then_drain_returns_pushed (s : Fifo) (bs : List Byte) (fuel : Nat)
    (hwf : s.WF) (hempty : s.head = s.tail) (hlen : bs.length < FIFOSIZE - 1)
    (hfuel : bs.length < fuel) :
    ∃ s', drain fuel (push_all bs s) = some (bs, s') ∧
      (fifo_read s' 0).1 = -1 ∧ s'.head = s'.tail := by
  obtain ⟨hw, hc⟩ := push_all_contents bs s hwf
  have hz : s.count = 0 := (count_eq_zero_iff s hwf).mpr hempty
  have hn : s.contents = [] := (contents_eq_nil_iff s hwf).mpr hempty
  have hlen' : bs.length ≤ 255 := by unfold FIFOSIZE at hlen; omega
  have hb : (push_all bs s).contents = bs := by
    rw [hc, hn, hz, List.nil_append, List.take_of_length_le hlen']
  have hcount : (push_all bs s).count < fuel := by
    rw [← length_contents, hb]; exact hfuel
  refine ⟨{ push_all bs s with tail := (push_all bs s).head }, ?_,
    empty_after_drain _ 0, rfl⟩
  rw [drain_contents fuel _ hw hcount, hb]

/-- C2: on a full ring buffer (`(head + 1) mod 256 == tail`) `fifo_write` changes
nothing (`head`, `tail` and `data` stay as they are); and pushing more than
255 bytes onto an empty buffer, then draining, pops exactly the first 255
bytes pushed, in order. -/
theorem write_on_full_is_noop (s : Fifo) (x : Byte) (e : Fifo) (bs : List Byte) (fuel : Nat) :
    (s.full → fifo_write x s = s) ∧
    (e.WF → e.head = e.tail → 255 < bs.length → 255 < fuel →
      ∃ e', drain fuel (push_all bs e) = some (bs.take 255, e') ∧
        (fifo_read e' 0).1 = -1) := by
  refine ⟨fifo_write_full x s, ?_⟩
  intro hwf hempty _ hfuel
  obtain ⟨hw, hc⟩ := push_all_contents bs e hwf
  have hz : e.count = 0 := (count_eq_zero_iff e hwf).mpr hempty
  have hn : e.contents = [] := (contents_eq_nil_iff e hwf).mpr hempty
  have hb : (push_all bs e).contents = bs.take 255 := by
    rw [hc, hn, hz, List.nil_append]
  have hcount : (push_all bs e).count < fuel := by
    have := count_lt (push_all bs e); omega
  refine ⟨{ push_all bs e with tail := (push_all bs e).head }, ?_,
    empty_after_drain _ 0⟩
  rw [drain_contents fuel _ hw hcount, hb]

/-! ### `console_read` -/

theorem console_read_ret (E : Int) (d : Dev) (buf : Mem) (c : Nat) (h : d.fifo.WF) :
    (console_read E d buf c).ret =
      if min c d.fifo.count = 0 then E else ((min c d.fifo.count : Nat) : Int) := by
  rw [console_read_eq E d buf c h]
  by_cases hz : min c d.fifo.count = 0
  · simp [hz]
  · simp [hz]

/-- The bytes `console_read` copies out and the bytes it leaves behind. -/
theorem console_read_transfer (E : Int) (d : Dev) (buf : Mem) (c : Nat) (h : d.fifo.WF) :
    (List.range (min c d.fifo.contents.length)).map (console_read E d buf c).buf
        = d.fifo.contents.take c ∧
      (∀ i, min c d.fifo.contents.length ≤ i → (console_read E d buf c).buf i = buf i) ∧
      (console_read E d buf c).dev.fifo.contents = d.fifo.contents.drop c ∧
      (console_read E d buf c).dev.fifo.WF := by
  rw [console_read_eq E d buf c h, length_contents]
  refine ⟨?_, ?_, ?_, advance_WF _ _ h⟩
  · apply List.ext_getElem
    · simp [length_contents]
    · intro i h1 h2
      have hi : i < min c d.fifo.count := by simpa using h1
      have hi' : i < d.fifo.contents.length := by rw [length_contents]; omega
      have hic : i < c ∧ i < d.fifo.count := by omega
      simp [hic, List.getElem?_eq_getElem hi']
  · intro i hi
    have : ¬ i < min c d.fifo.count := by omega
    simp only [if_neg this]
  · show Fifo.contents { d.fifo with tail := (d.fifo.tail + min c d.fifo.count) % 256 } = _
    rw [contents_advance _ _ h (Nat.min_le_right _ _)]
    rw [← length_contents]
    by_cases hc : c ≤ d.fifo.contents.length
    · rw [Nat.min_eq_left hc]
    · have hc' : d.fifo.contents.length ≤ c := by omega
      rw [Nat.min_eq_right hc', List.drop_length, List.drop_eq_nil_of_le hc']

/-- C3: on a ring buffer holding `n` bytes, `console_read` with requested
count `c` returns `min c n` when that is at least 1 and `ERR_SHOULD_WAIT`
(a negative status) otherwise; so on an empty buffer it returns
`ERR_SHOULD_WAIT` whatever `c` is, it never returns 0, and a return value
other than `ERR_SHOULD_WAIT` lies between 1 and `min c 255`. -/
theorem console_read_returns_count_or_should_wait (ERR_SHOULD_WAIT : Int) (d : Dev)
    (buf : Mem) (c : Nat) (hwf : d.fifo.WF) (hneg : ERR_SHOULD_WAIT < 0) :
    (console_read ERR_SHOULD_WAIT d buf c).ret =
        (if 1 ≤ min c d.fifo.count then ((min c d.fifo.count : Nat) : Int)
          else ERR_SHOULD_WAIT) ∧
      (d.fifo.head = d.fifo.tail →
        (console_read ERR_SHOULD_WAIT d buf c).ret = ERR_SHOULD_WAIT) ∧
      (console_read ERR_SHOULD_WAIT d buf c).ret ≠ 0 ∧
      ((console_read ERR_SHOULD_WAIT d buf c).ret = ERR_SHOULD_WAIT ∨
        (1 ≤ (console_read ERR_SHOULD_WAIT d buf c).ret ∧
          (console_read ERR_SHOULD_WAIT d buf c).ret ≤ ((min c 255 : Nat) : Int))) := by
  have hlt := count_lt d.fifo
  rw [console_read_ret ERR_SHOULD_WAIT d buf c hwf]
  refine ⟨?_, ?_, ?_, ?_⟩
  · by_cases hz : min c d.fifo.count = 0
    · have : ¬ 1 ≤ min c d.fifo.count := by omega
      rw [if_pos hz, if_neg this]
    · have : 1 ≤ min c d.fifo.count := by omega
      rw [if_neg hz, if_pos this]
  · intro he
    have hz : d.fifo.count = 0 := (count_eq_zero_iff d.fifo hwf).mpr he
    simp only [hz, Nat.min_zero, if_true]
  · by_cases hz : min c d.fifo.count = 0
    · simp only [hz, if_true]; omega
    · simp only [hz, if_false]; omega
  · by_cases hz : min c d.fifo.count = 0
    · simp only [hz, if_true, true_or]
    · simp only [hz, if_false]
      right
      omega

theorem take_min_length (c : Nat) (L : List Byte) : L.take (min c L.length) = L.take c := by
  by_cases hc : c ≤ L.length
  · rw [Nat.min_eq_left hc]
  · have hc' : L.length ≤ c := by omega
    rw [Nat.min_eq_right hc', List.take_length, List.take_of_length_le hc']

theorem drop_min_length (c : Nat) (L : List Byte) : L.drop (min c L.length) = L.drop c := by
  by_cases hc : c ≤ L.length
  · rw [Nat.min_eq_left hc]
  · have hc' : L.length ≤ c := by omega
    rw [Nat.min_eq_right hc', List.drop_length, List.drop_eq_nil_of_le hc']

/-- After `console_read` the readiness flag is cleared when the buffer ended
up empty and is left alone otherwise. -/
theorem console_read_readable (E : Int) (d : Dev) (buf : Mem) (c : Nat) :
    (console_read E d buf c).dev.readable =
      if (console_read E d buf c).dev.fifo.head = (console_read E d buf c).dev.fifo.tail
      then false else d.readable := by
  unfold console_read
  rfl

theorem scenario_dev_WF : scenario_dev.fifo.WF :=
  fifo_write_WF _ _ (fifo_write_WF _ _ (fifo_write_WF _ _ fifo_init_WF))

theorem scenario_dev_contents : scenario_dev.fifo.contents = [0x41, 0x42, 0x43] :=
  (push_all_contents [0x41, 0x42, 0x43] fifo_init fifo_init_WF).2.trans
    (by rw [fifo_init_contents]; rfl)

theorem scenario_dev_readable : scenario_dev.readable = true := by
  decide

/-- C4: with the buffered bytes, in FIFO order, being `L`, `console_read` with
requested count `c` stores the first `k = min c |L|` bytes of `L`, in order,
at offsets `0 .. k-1` of the caller's buffer, leaves every offset from `k` on
as it was, and leaves `L.drop k` buffered. In the end-to-end scenario (the
reader task pushes `0x41, 0x42, 0x43` from the initial state) a read of 2
returns 2 with `[0x41, 0x42]`, leaves `[0x43]` and the device readable; a
following read of 4 returns 1 with `[0x43]` and the device is no longer
readable. -/
theorem console_read_copies_oldest_first (E : Int) (d : Dev) (buf buf2 : Mem) (c : Nat)
    (L : List Byte) (hwf : d.fifo.WF) (hL : d.fifo.contents = L) :
    ((List.range (min c L.length)).map (console_read E d buf c).buf = L.take (min c L.length) ∧
      (∀ i, min c L.length ≤ i → (console_read E d buf c).buf i = buf i) ∧
      (console_read E d buf c).dev.fifo.contents = L.drop (min c L.length)) ∧
    ((console_read E scenario_dev buf 2).ret = 2 ∧
      (List.range 2).map (console_read E scenario_dev buf 2).buf = [0x41, 0x42] ∧
      (console_read E scenario_dev buf 2).dev.fifo.contents = [0x43] ∧
      (console_read E scenario_dev buf 2).dev.readable = true ∧
      (console_read E (console_read E scenario_dev buf 2).dev buf2 4).ret = 1 ∧
      (List.range 1).map (console_read E (console_read E scenario_dev buf 2).dev buf2 4).buf
        = [0x43] ∧
      (console_read E (console_read E scenario_dev buf 2).dev buf2 4).dev.fifo.contents = [] ∧
      (console_read E (console_read E scenario_dev buf 2).dev buf2 4).dev.readable = false) := by
  constructor
  · obtain ⟨h1, h2, h3, _⟩ := console_read_transfer E d buf c hwf
    rw [hL] at h1 h2 h3
    exact ⟨by rw [h1, take_min_length], h2, by rw [h3, drop_min_length]⟩
  · obtain ⟨h1, _, h3, h4⟩ := console_read_transfer E scenario_dev buf 2 scenario_dev_WF
    obtain ⟨g1, _, g3, g4⟩ :=
      console_read_transfer E (console_read E scenario_dev buf 2).dev buf2 4 h4
    rw [scenario_dev_contents] at h1 h3
    rw [h3] at g1 g3
    have hr1 := console_read_ret E scenario_dev buf 2 scenario_dev_WF
    have hr2 := console_read_ret E (console_read E scenario_dev buf 2).dev buf2 4 h4
    rw [← length_contents, scenario_dev_contents] at hr1
    rw [← length_contents, h3] at hr2
    have hf1 : (console_read E scenario_dev buf 2).dev.readable = true := by
      have hne : (console_read E scenario_dev buf 2).dev.fifo.head ≠
          (console_read E scenario_dev buf 2).dev.fifo.tail := by
        intro e
        have := (contents_eq_nil_iff _ h4).mpr e
        rw [h3] at this
        exact absurd this (by decide)
      rw [console_read_readable, if_neg hne, scenario_dev_readable]
    have hf2 : (console_read E (console_read E scenario_dev buf 2).dev buf2 4).dev.readable
        = false := by
      have he := (contents_eq_nil_iff _ g4).mp (g3.trans (by decide))
      rw [console_read_readable, if_pos he]
    exact ⟨by simpa using hr1, by simpa using h1, by simpa using h3, hf1,
      by simpa using hr2, by simpa using g1, by simpa using g3, hf2⟩

/-! ### The readiness flag -/

theorem console_read_loop_of_empty (c : Nat) (s : Fifo) (buf : Mem) (pos : Nat)
    (h : s.head = s.tail) : console_read_loop c s buf pos = (s, buf, pos) := by
  cases c with
  | zero => rfl
  | succ c => simp [console_read_loop, fifo_read_empty s _ h]

theorem console_read_fifo_of_empty (E : Int) (d : Dev) (buf : Mem) (c : Nat)
    (h : d.fifo.head = d.fifo.tail) : (console_read E d buf c).dev.fifo = d.fifo := by
  unfold console_read
  rw [console_read_loop_of_empty c d.fifo buf 0 h]

theorem debug_reader_iter_ready (ret : Int) (ch : Byte) (d : Dev)
    (h : d.ready_iff_nonempty) : (debug_reader_iter ret ch d).ready_iff_nonempty := by
  unfold debug_reader_iter
  by_cases hr : ret = 1
  · rw [if_pos hr]
    unfold Dev.ready_iff_nonempty at *
    by_cases hf : d.fifo.full
    · have hne : d.fifo.head ≠ d.fifo.tail := by
        unfold Fifo.full FIFOSIZE at hf; omega
      simp only [fifo_write_full ch d.fifo hf, if_neg hne]
      exact h
    · have hne : (d.fifo.head + 1) % 256 ≠ d.fifo.tail := hf
      simp only [fifo_write_not_full ch d.fifo hf]
      by_cases he : d.fifo.head = d.fifo.tail
      · simp [he, hne]
        rw [← he]; omega
      · simp only [if_neg he]
        constructor
        · intro _; exact hne
        · intro _; exact h.mpr he
  · rw [if_neg hr]; exact h

theorem console_read_ready (E : Int) (d : Dev) (buf : Mem) (c : Nat)
    (h : d.ready_iff_nonempty) : (console_read E d buf c).dev.ready_iff_nonempty := by
  unfold Dev.ready_iff_nonempty at *
  rw [console_read_readable]
  by_cases he : (console_read E d buf c).dev.fifo.head = (console_read E d buf c).dev.fifo.tail
  · simp [he]
  · rw [if_neg he]
    have hd : d.fifo.head ≠ d.fifo.tail := by
      intro e
      rw [console_read_fifo_of_empty E d buf c e] at he
      exact he e
    constructor
    · intro _; exact he
    · intro _; exact h.mpr hd

theorem step_ready (E : Int) (d : Dev) (op : Op) (h : d.ready_iff_nonempty) :
    (step E d op).ready_iff_nonempty := by
  cases op with
  | reader ret ch => exact debug_reader_iter_ready ret ch d h
  | read buf count => exact console_read_ready E d buf count h

theorem run_ready (E : Int) (ops : List Op) (d : Dev) (h : d.ready_iff_nonempty) :
    (run E ops d).ready_iff_nonempty := by
  induction ops generalizing d with
  | nil => exact h
  | cons op ops ih => exact ih (step E d op) (step_ready E d op h)

theorem dev_init_ready : dev_init.ready_iff_nonempty := by
  decide

/-- C5: the predicate "the device is readable if and only if `head != tail`"
holds in the initial state, is preserved by every iteration of the reader
task (whatever `mx_debug_read` returned and whatever byte it produced) and by
every `console_read` call (whatever count is requested, 0 included), and so
holds after every sequential interleaving of the two from the initial state. -/
theorem readable_iff_nonempty_invariant (E : Int) (d : Dev) (ret : Int) (ch : Byte)
    (buf : Mem) (count : Nat) (ops : List Op) :
    dev_init.ready_iff_nonempty ∧
      (d.ready_iff_nonempty → (debug_reader_iter ret ch d).ready_iff_nonempty) ∧
      (d.ready_iff_nonempty → (console_read E d buf count).dev.ready_iff_nonempty) ∧
      (run E ops dev_init).ready_iff_nonempty :=
  ⟨dev_init_ready, debug_reader_iter_ready ret ch d, console_read_ready E d buf count,
    run_ready E ops dev_init dev_init_ready⟩

/-! ### FIFO order across interleavings -/

theorem debug_reader_iter_fifo (ret : Int) (ch : Byte) (d : Dev) :
    (debug_reader_iter ret ch d).fifo = if ret = 1 then fifo_write ch d.fifo else d.fifo := by
  unfold debug_reader_iter
  by_cases hr : ret = 1
  · simp only [if_pos hr]
  · simp only [if_neg hr]

theorem debug_reader_iter_WF (ret : Int) (ch : Byte) (d : Dev) (h : d.fifo.WF) :
    (debug_reader_iter ret ch d).fifo.WF := by
  rw [debug_reader_iter_fifo]
  by_cases hr : ret = 1
  · rw [if_pos hr]; exact fifo_write_WF ch d.fifo h
  · rw [if_neg hr]; exact h

theorem console_read_delivered (E : Int) (d : Dev) (buf : Mem) (c : Nat) (h : d.fifo.WF)
    (hneg : E < 0) : (console_read E d buf c).delivered = d.fifo.contents.take c := by
  unfold ReadResult.delivered
  have hn : (console_read E d buf c).ret.toNat = min c d.fifo.contents.length := by
    rw [console_read_ret E d buf c h, length_contents]
    by_cases hz : min c d.fifo.count = 0
    · rw [if_pos hz, hz]; omega
    · rw [if_neg hz]; omega
  rw [hn]
  exact (console_read_transfer E d buf c h).1

/-- Delivered bytes followed by the bytes still buffered are the bytes that
were buffered at the start followed by the accepted pushes. -/
theorem delivered_append_contents (E : Int) (hneg : E < 0) (ops : List Op) (d : Dev)
    (h : d.fifo.WF) :
    (run E ops d).fifo.WF ∧
      delivered E ops d ++ (run E ops d).fifo.contents =
        d.fifo.contents ++ accepted E ops d := by
  induction ops generalizing d with
  | nil => simp [run, delivered, accepted, h]
  | cons op ops ih =>
    cases op with
    | reader ret ch =>
      have hw := debug_reader_iter_WF ret ch d h
      obtain ⟨w, e⟩ := ih (debug_reader_iter ret ch d) hw
      have hrun : run E (Op.reader ret ch :: ops) d = run E ops (debug_reader_iter ret ch d) :=
        rfl
      rw [hrun]
      refine ⟨w, ?_⟩
      simp only [delivered, accepted]
      rw [e, debug_reader_iter_fifo]
      by_cases hr : ret = 1
      · by_cases hf : d.fifo.full
        · simp [hr, hf, fifo_write_full ch d.fifo hf]
        · simp [hr, hf, contents_push ch d.fifo h hf]
      · simp [hr]
    | read buf count =>
      obtain ⟨_, _, h3, h4⟩ := console_read_transfer E d buf count h
      obtain ⟨w, e⟩ := ih (console_read E d buf count).dev h4
      have hrun : run E (Op.read buf count :: ops) d =
          run E ops (console_read E d buf count).dev := rfl
      rw [hrun]
      refine ⟨w, ?_⟩
      simp only [delivered, accepted]
      rw [List.append_assoc, e, h3, console_read_delivered E d buf count h hneg,
        ← List.append_assoc, List.take_append_drop]

theorem accepted_sublist_pushed (E : Int) (ops : List Op) (d : Dev) :
    (accepted E ops d).Sublist (pushed ops) := by
  induction ops generalizing d with
  | nil => simp [accepted, pushed]
  | cons op ops ih =>
    cases op with
    | reader ret ch =>
      simp only [accepted, pushed]
      by_cases hr : ret = 1
      · by_cases hf : d.fifo.full
        · simp only [hr, hf, not_true_eq_false, and_false, if_false, if_true]
          exact (ih _).cons ch
        · simp only [hr, hf, not_false_eq_true, and_self, if_true]
          exact (ih _).cons₂ ch
      · simp only [hr, false_and, if_false]
        exact ih _
    | read buf count =>
      simp only [accepted, pushed]
      exact ih _

/-- C6: in every sequential interleaving, from the initial state, of
reader-task iterations and `console_read` calls, the bytes returned by the
reads (concatenated in call order) followed by the bytes still buffered are
exactly the received bytes whose push did not find the buffer full, in the
order received; hence what the reads return is a subsequence of the received
bytes: nothing is reordered, duplicated or invented. -/
theorem reads_deliver_fifo_order (ERR_SHOULD_WAIT : Int) (ops : List Op)
    (hneg : ERR_SHOULD_WAIT < 0) :
    delivered ERR_SHOULD_WAIT ops dev_init ++
        (run ERR_SHOULD_WAIT ops dev_init).fifo.contents =
        accepted ERR_SHOULD_WAIT ops dev_init ∧
      (accepted ERR_SHOULD_WAIT ops dev_init).Sublist (pushed ops) ∧
      (delivered ERR_SHOULD_WAIT ops dev_init).Sublist (pushed ops) := by
  have h := (delivered_append_contents ERR_SHOULD_WAIT hneg ops dev_init fifo_init_WF).2
  have hi : dev_init.fifo.contents = [] := fifo_init_contents
  rw [hi, List.nil_append] at h
  refine ⟨h, accepted_sublist_pushed _ ops dev_init, ?_⟩
  have hs : (delivered ERR_SHOULD_WAIT ops dev_init).Sublist
      (accepted ERR_SHOULD_WAIT ops dev_init) := by
    rw [← h]; exact List.sublist_append_left _ _
  exact hs.trans (accepted_sublist_pushed _ ops dev_init)

/-! ### Capacity -/

theorem fifo_step_WF (s : Fifo) (op : FifoOp) (h : s.WF) : (fifo_step s op).WF := by
  cases op with
  | write x => exact fifo_write_WF x s h
  | read out =>
    by_cases he : s.head = s.tail
    · simp only [fifo_step, fifo_read_empty s out he]; exact h
    · simp only [fifo_step, fifo_read_nonempty s out he]; exact pop_WF s h

theorem fifo_run_WF (ops : List FifoOp) (s : Fifo) (h : s.WF) : (fifo_run ops s).WF := by
  induction ops generalizing s with
  | nil => exact h
  | cons op ops ih => exact ih (fifo_step s op) (fifo_step_WF s op h)

theorem fifo_run_writes (bs : List Byte) (s : Fifo) :
    fifo_run (bs.map FifoOp.write) s = push_all bs s := by
  induction bs generalizing s with
  | nil => rfl
  | cons b bs ih => exact ih (fifo_write b s)

/-- C7: in every state reached from the initial state by `fifo_write` and
`fifo_read` calls a full drain performs at most `FIFOSIZE - 1 = 255`
successful pops (so never 256), and `head == tail` holds exactly when the
drain pops nothing; the bound is attained: 255 bytes pushed from the initial
state are all retained. -/
theorem holds_at_most_255 (ops : List FifoOp) (bs : List Byte) :
    (∃ L s', drain FIFOSIZE (fifo_run ops fifo_init) = some (L, s') ∧
        L.length ≤ FIFOSIZE - 1 ∧ L.length ≠ FIFOSIZE ∧
        ((fifo_run ops fifo_init).head = (fifo_run ops fifo_init).tail ↔ L = [])) ∧
      (bs.length = FIFOSIZE - 1 →
        ∃ s', drain FIFOSIZE (fifo_run (bs.map FifoOp.write) fifo_init) = some (bs, s')) := by
  constructor
  · have hw := fifo_run_WF ops fifo_init fifo_init_WF
    have hlt := count_lt (fifo_run ops fifo_init)
    have hfull : FIFOSIZE = 256 := rfl
    refine ⟨(fifo_run ops fifo_init).contents, _,
      drain_contents FIFOSIZE _ hw (by omega), ?_, ?_, (contents_eq_nil_iff _ hw).symm⟩
    · rw [length_contents]; omega
    · rw [length_contents]; omega
  · intro hlen
    rw [fifo_run_writes]
    have hfull : FIFOSIZE = 256 := rfl
    obtain ⟨s', h, _⟩ := push_then_drain_contents bs fifo_init FIFOSIZE fifo_init_WF rfl
      (by omega)
    rw [List.take_of_length_le (by omega)] at h
    exact ⟨s', h⟩

/-! ### What happens on a full buffer -/

theorem overlong_length : overlong.length = 256 := by
  show (List.replicate 255 (1 : Byte)).length + 1 = 256
  rw [List.length_replicate]

theorem overlong_heads_differ : (overlong.take 255).head? ≠ (overlong.drop 1).head? := by
  have h1 : (overlong.take 255).head? = some 0 := rfl
  have h2 : (overlong.drop 1).head? = some 1 := rfl
  rw [h1, h2]
  decide

/-- C8, as stated, fails: after pushing the 256 bytes `0, 1, 1, ..., 1` onto
the initial (empty) buffer, a drain does not return the most recently pushed
255 bytes (all of them but the first). -/
theorem overwrite_on_full_refuted :
    overlong.length = 256 ∧
      ¬ ((drain FIFOSIZE (push_all overlong fifo_init)).map Prod.fst
          = some (overlong.drop (256 - 255))) := by
  refine ⟨overlong_length, ?_⟩
  intro heq
  obtain ⟨s', h, _⟩ :=
    push_then_drain_contents overlong fifo_init FIFOSIZE fifo_init_WF rfl (by decide)
  rw [h] at heq
  simp only [Option.map_some', Option.some.injEq] at heq
  exact overlong_heads_differ (congrArg List.head? heq)

/-- C8, amended: the ring buffer drops the newest byte when full. A push onto
a full buffer leaves the buffered bytes as they were (the new byte is the
one discarded), and after more than 255 pushes onto an empty buffer with no
pops a drain returns the first 255 bytes pushed: the bytes dropped are the
ones pushed after the 255th. -/
theorem push_on_full_drops_newest (s : Fifo) (x : Byte) (e : Fifo) (bs : List Byte)
    (fuel : Nat) :
    (s.full → fifo_write x s = s ∧ (fifo_write x s).contents = s.contents) ∧
    (e.WF → e.head = e.tail → 255 < bs.length → 255 < fuel →
      (drain fuel (push_all bs e)).map Prod.fst = some (bs.take 255) ∧
        (push_all bs e).contents ++ bs.drop 255 = bs) := by
  constructor
  · intro hf
    rw [fifo_write_full x s hf]
    exact ⟨rfl, rfl⟩
  · intro hwf hempty _ hfuel
    obtain ⟨s', h, hc⟩ := push_then_drain_contents bs e fuel hwf hempty hfuel
    rw [h, hc]
    exact ⟨rfl, List.take_append_drop 255 bs⟩

/-! ### `fifo_read` and `console_write` -/

/-- C9: on a ring buffer with in-range indices, `fifo_read` on `head == tail`
returns `-1` (not `NO_ERROR`), leaves `*out` as it was and changes nothing;
on `head != tail` it returns `NO_ERROR`, stores `data[tail]` in `*out`, sets
`tail` to `(tail + 1) mod 256` and leaves `head` and `data` alone; the byte
stored is the oldest buffered byte, and the rest stays buffered in order. -/
theorem fifo_read_pops_oldest (s : Fifo) (out : Byte) (hwf : s.WF) :
    fifo_read s out =
        (if s.head = s.tail then (-1, out, s)
          else (NO_ERROR, s.data.getD s.tail 0,
            { data := s.data, head := s.head, tail := (s.tail + 1) % FIFOSIZE })) ∧
      (-1 : Int) ≠ NO_ERROR ∧
      (s.head ≠ s.tail →
        s.data[s.tail]? = some (fifo_read s out).2.1 ∧
          s.contents = (fifo_read s out).2.1 :: (fifo_read s out).2.2.contents) := by
  refine ⟨?_, by decide, ?_⟩
  · by_cases he : s.head = s.tail
    · rw [if_pos he, fifo_read_empty s out he]
    · rw [if_neg he, fifo_read_nonempty s out he]; rfl
  · intro hne
    rw [fifo_read_nonempty s out hne]
    have hl : s.tail < s.data.length := by rw [hwf.1]; exact hwf.2.2
    refine ⟨?_, contents_pop s hwf hne⟩
    simp [List.getD_eq_getElem?_getD, List.getElem?_eq_getElem hl]

/-- C10: `console_write` calls the sink `mx_debug_write` exactly once, with the
caller's buffer and the whole count, and returns what the sink returned; the
ring buffer and the readiness flag are as before, and neither `ctx` nor the
offset has any influence. -/
theorem console_write_forwards_to_sink (mx_debug_write : Mem → Nat → Int)
    (calls : List (Mem × Nat)) (d : Dev) (ctx ctx2 : Nat) (buf : Mem) (K : Nat)
    (off off2 : Nat) :
    (console_write mx_debug_write calls d ctx buf K off).1 = mx_debug_write buf K ∧
      (console_write mx_debug_write calls d ctx buf K off).2.1 = calls ++ [(buf, K)] ∧
      (console_write mx_debug_write calls d ctx buf K off).2.2 = d ∧
      console_write mx_debug_write calls d ctx2 buf K off2 =
        console_write mx_debug_write calls d ctx buf K off :=
  ⟨rfl, rfl, rfl, rfl⟩

/-! ### `console_bind` -/

/-- C11, as stated, fails: when `malloc` fails `console_bind` fails (it returns
`ERR_NO_MEMORY`, here `-4`), and in that failure case the console context is
not freed exactly once: `free` is not called at all. -/
theorem bind_alloc_failure_frees_nothing :
    (console_bind (-4) false 0 0).1 ≠ NO_ERROR ∧
      ¬ ((console_bind (-4) false 0 0).2.count BindEvent.free = 1) := by
  decide

/-- C11, amended: `console_bind` returns `ERR_NO_MEMORY` when allocation fails,
the failing status of `device_create` or of `device_add` verbatim when one of
them fails, and `NO_ERROR` only when all succeed. In every failure case the
console context is freed exactly once if and only if it had been allocated,
the device handle is destroyed exactly once if and only if it had been
created, and the reader task is not spawned; the reader task is spawned
exactly once on the success path, where nothing is freed or destroyed. -/
theorem console_bind_outcomes (ERR_NO_MEMORY : Int) (malloc_ok : Bool)
    (create_status add_status : Int) (hE : ERR_NO_MEMORY ≠ NO_ERROR) :
    (malloc_ok = false →
        (console_bind ERR_NO_MEMORY malloc_ok create_status add_status).1 = ERR_NO_MEMORY) ∧
      (malloc_ok = true → create_status ≠ NO_ERROR →
        (console_bind ERR_NO_MEMORY malloc_ok create_status add_status).1 = create_status) ∧
      (malloc_ok = true → create_status = NO_ERROR → add_status ≠ NO_ERROR →
        (console_bind ERR_NO_MEMORY malloc_ok create_status add_status).1 = add_status) ∧
      ((console_bind ERR_NO_MEMORY malloc_ok create_status add_status).1 = NO_ERROR ↔
        (malloc_ok = true ∧ create_status = NO_ERROR ∧ add_status = NO_ERROR)) ∧
      ((console_bind ERR_NO_MEMORY malloc_ok create_status add_status).1 ≠ NO_ERROR →
        (console_bind ERR_NO_MEMORY malloc_ok create_status add_status).2.count .free
            = (if malloc_ok = true then 1 else 0) ∧
          (console_bind ERR_NO_MEMORY malloc_ok create_status add_status).2.count
              .device_destroy
            = (if malloc_ok = true ∧ create_status = NO_ERROR then 1 else 0) ∧
          (console_bind ERR_NO_MEMORY malloc_ok create_status add_status).2.count
              .thrd_create = 0) ∧
      ((console_bind ERR_NO_MEMORY malloc_ok create_status add_status).1 = NO_ERROR →
        (console_bind ERR_NO_MEMORY malloc_ok create_status add_status).2.count .thrd_create
            = 1 ∧
          (console_bind ERR_NO_MEMORY malloc_ok create_status add_status).2.count .free = 0 ∧
          (console_bind ERR_NO_MEMORY malloc_ok create_status add_status).2.count
              .device_destroy = 0) := by
  cases malloc_ok with
  | false => simp [console_bind, hE]
  | true =>
    by_cases hc : create_status = NO_ERROR
    · by_cases ha : add_status = NO_ERROR
      · simp [console_bind, hc, ha]
      · simp [console_bind, hc, ha]
    · simp [console_bind, hc]

/-! ### One iteration of the reader task -/

theorem debug_reader_iter_skip (ret : Int) (ch : Byte) (d : Dev) (h : ret ≠ 1) :
    debug_reader_iter ret ch d = d := by
  unfold debug_reader_iter
  rw [if_neg h]

theorem empty_not_full (s : Fifo) (h : s.head = s.tail) : ¬ s.full := by
  unfold Fifo.full FIFOSIZE
  omega

/-- C13: an iteration of the reader task in which `mx_debug_read` returns
anything but 1 leaves `head`, `tail`, `data` and the readiness flag as they
were. When it returns 1 with byte `ch`: on an empty buffer the flag is set
and `ch` is stored (the buffer then holds exactly `ch`); on a buffer that is
neither empty nor full `ch` is appended and the flag keeps its value; on a
full buffer the whole state is unchanged, so `ch` is dropped. -/
theorem reader_iteration_effect (ret : Int) (ch : Byte) (d : Dev) :
    (ret ≠ 1 → debug_reader_iter ret ch d = d) ∧
      (d.fifo.head = d.fifo.tail →
        (debug_reader_iter 1 ch d).readable = true ∧
          (debug_reader_iter 1 ch d).fifo =
            { data := d.fifo.data.set d.fifo.head ch, head := (d.fifo.head + 1) % FIFOSIZE,
              tail := d.fifo.tail } ∧
          (d.fifo.WF → (debug_reader_iter 1 ch d).fifo.contents = [ch])) ∧
      (d.fifo.head ≠ d.fifo.tail → ¬ d.fifo.full →
        (debug_reader_iter 1 ch d).readable = d.readable ∧
          (debug_reader_iter 1 ch d).fifo =
            { data := d.fifo.data.set d.fifo.head ch, head := (d.fifo.head + 1) % FIFOSIZE,
              tail := d.fifo.tail } ∧
          (d.fifo.WF →
            (debug_reader_iter 1 ch d).fifo.contents = d.fifo.contents ++ [ch])) ∧
      (d.fifo.full → debug_reader_iter 1 ch d = d) := by
  refine ⟨debug_reader_iter_skip ret ch d, ?_, ?_, ?_⟩
  · intro he
    have hf := empty_not_full d.fifo he
    refine ⟨?_, ?_, ?_⟩
    · simp [debug_reader_iter, he]
    · rw [debug_reader_iter_fifo, if_pos rfl, fifo_write_not_full ch d.fifo hf]; rfl
    · intro hwf
      rw [debug_reader_iter_fifo, if_pos rfl, contents_push ch d.fifo hwf hf,
        (contents_eq_nil_iff d.fifo hwf).mpr he]
      rfl
  · intro hne hf
    refine ⟨?_, ?_, ?_⟩
    · simp [debug_reader_iter, hne]
    · rw [debug_reader_iter_fifo, if_pos rfl, fifo_write_not_full ch d.fifo hf]; rfl
    · intro hwf
      rw [debug_reader_iter_fifo, if_pos rfl, contents_push ch d.fifo hwf hf]
  · intro hf
    have hne : d.fifo.head ≠ d.fifo.tail := fun e => empty_not_full d.fifo e hf
    simp [debug_reader_iter, hne, fifo_write_full ch d.fifo hf]

/-! ### Termination of the drain loop of `console_read` -/

theorem console_read_loop_bounded_eq (fuel count : Nat) (s : Fifo) (buf : Mem) (pos : Nat)
    (h : s.WF) (hf : min count s.count < fuel) :
    console_read_loop_bounded fuel count s buf pos
      = some (console_read_loop count s buf pos) := by
  induction fuel generalizing count s buf pos with
  | zero => omega
  | succ fuel ih =>
    cases count with
    | zero => simp [console_read_loop_bounded, console_read_loop]
    | succ c =>
      by_cases he : s.head = s.tail
      · simp [console_read_loop_bounded, console_read_loop, fifo_read_empty s _ he]
      · have hp := count_pop s h he
        have hlt : min c (Fifo.count { s with tail := (s.tail + 1) % 256 }) < fuel := by
          rw [hp] at hf; omega
        have := ih c { s with tail := (s.tail + 1) % 256 }
          (Function.update buf pos (s.data.getD s.tail 0)) (pos + 1) (pop_WF s h) hlt
        simp only [console_read_loop_bounded, console_read_loop, fifo_read_nonempty s _ he,
          Nat.succ_pos, gt_iff_lt, if_true, ne_eq, not_true_eq_false, if_false,
          Nat.add_sub_cancel]
        exact this

theorem console_read_loop_final (count : Nat) (s : Fifo) (buf : Mem) (h : s.WF) :
    (console_read_loop count s buf 0).2.2 = min count s.count ∧
      ((console_read_loop count s buf 0).2.2 = count ∨
        (console_read_loop count s buf 0).1.head = (console_read_loop count s buf 0).1.tail) := by
  rw [console_read_loop_eq count s buf 0 h]
  refine ⟨by simp, ?_⟩
  by_cases hc : count ≤ s.count
  · left
    simp [Nat.min_eq_left hc]
  · right
    have hc' : s.count ≤ count := by omega
    have hw := advance_WF (min count s.count) s h
    have hnil : Fifo.contents { s with tail := (s.tail + min count s.count) % 256 } = [] := by
      rw [contents_advance _ s h (Nat.min_le_right _ _), Nat.min_eq_right hc',
        ← length_contents, List.drop_length]
    exact (contents_eq_nil_iff _ hw).mp hnil

/-- C14: on a ring buffer with in-range indices and for every requested count
(`SIZE_MAX` included) the drain loop of `console_read` exits after at most
`FIFOSIZE = 256` evaluations of its condition, whatever the count: it has
then performed `min count n` successful pops, so at most `min count 255`, and
it stopped because `count` pops were done or because the buffer was empty
(the pop failed). -/
theorem console_read_loop_terminates (count fuel : Nat) (s : Fifo) (buf : Mem)
    (hwf : s.WF) (hfuel : FIFOSIZE ≤ fuel) :
    console_read_loop_bounded fuel count s buf 0
        = some (console_read_loop count s buf 0) ∧
      (console_read_loop count s buf 0).2.2 = min count s.count ∧
      (console_read_loop count s buf 0).2.2 ≤ min count 255 ∧
      ((console_read_loop count s buf 0).2.2 = count ∨
        (console_read_loop count s buf 0).1.head
          = (console_read_loop count s buf 0).1.tail) := by
  have hlt := count_lt s
  have hF : FIFOSIZE = 256 := rfl
  obtain ⟨h1, h2⟩ := console_read_loop_final count s buf hwf
  refine ⟨console_read_loop_bounded_eq fuel count s buf 0 hwf (by omega), h1, ?_, h2⟩
  rw [h1]; omega

/-! ### Refinement of a bounded list queue -/

theorem fifo_write_queue (x : Byte) (s : Fifo) (h : s.WF) :
    (fifo_write x s).WF ∧ (fifo_write x s).contents = queue_write x s.contents := by
  refine ⟨fifo_write_WF x s h, ?_⟩
  unfold queue_write
  rw [length_contents]
  by_cases hf : s.full
  · have hc := (full_iff_count s h).mp hf
    rw [fifo_write_full x s hf, if_neg (by omega)]
  · have hc : s.count ≠ 255 := fun e => hf ((full_iff_count s h).mpr e)
    have hlt := count_lt s
    rw [contents_push x s h hf, if_pos (by omega)]

theorem fifo_read_queue (s : Fifo) (out : Byte) (h : s.WF) :
    (fifo_read s out).2.2.WF ∧
      (fifo_read s out).2.2.contents = (queue_read s.contents).2 ∧
      ((fifo_read s out).1, (fifo_read s out).2.1) = queue_report out (queue_read s.contents).1 := by
  by_cases he : s.head = s.tail
  · have hn := (contents_eq_nil_iff s h).mpr he
    rw [fifo_read_empty s out he, hn]
    exact ⟨h, rfl, rfl⟩
  · rw [fifo_read_nonempty s out he, contents_pop s h he]
    exact ⟨pop_WF s h, rfl, rfl⟩

theorem fifo_run_queue (ops : List FifoOp) (s : Fifo) (h : s.WF) :
    fifo_results ops s = queue_results ops s.contents ∧
      (fifo_run ops s).contents = queue_run ops s.contents := by
  induction ops generalizing s with
  | nil => exact ⟨rfl, rfl⟩
  | cons op ops ih =>
    cases op with
    | write x =>
      obtain ⟨hw, hc⟩ := fifo_write_queue x s h
      have := ih (fifo_write x s) hw
      rw [hc] at this
      exact this
    | read out =>
      obtain ⟨hw, hc, hr⟩ := fifo_read_queue s out h
      have := ih (fifo_read s out).2.2 hw
      rw [hc] at this
      refine ⟨?_, this.2⟩
      show _ :: fifo_results ops (fifo_read s out).2.2 = _ :: queue_results ops _
      rw [this.1, hr]

/-- C15: under the abstraction `contents` (the bytes from `data[tail]` up to
`head`, in order) the ring buffer refines the bounded list queue of capacity
255. On every state with in-range indices the contents never exceed 255
bytes, `fifo_write x` maps contents `L` to `L ++ [x]` when `|L| < 255` and to
`L` when `|L| = 255`, and `fifo_read` maps `x :: L` to `L` returning `x` and
reports empty on `[]`; so every sequence of calls from the initial state
returns the same results, and ends with the same contents, as the same
sequence on the list queue. -/
theorem fifo_refines_list_queue (s : Fifo) (x out : Byte) (ops : List FifoOp)
    (hwf : s.WF) :
    s.contents.length ≤ 255 ∧
      (fifo_write x s).contents = queue_write x s.contents ∧
      (fifo_read s out).2.2.contents = (queue_read s.contents).2 ∧
      ((fifo_read s out).1, (fifo_read s out).2.1)
        = queue_report out (queue_read s.contents).1 ∧
      fifo_results ops fifo_init = queue_results ops [] ∧
      (fifo_run ops fifo_init).contents = queue_run ops [] := by
  have hlt := count_lt s
  have hrun := fifo_run_queue ops fifo_init fifo_init_WF
  rw [fifo_init_contents] at hrun
  exact ⟨by rw [length_contents]; omega, (fifo_write_queue x s hwf).2,
    (fifo_read_queue s out hwf).2.1, (fifo_read_queue s out hwf).2.2, hrun.1, hrun.2⟩

/-! ### A read of zero bytes -/

/-- C16: on a non-empty ring buffer `console_read` with requested count 0
returns `ERR_SHOULD_WAIT`, leaves the caller's memory as it was and leaves
`head`, `tail`, `data` and the readiness flag unchanged; so a would-block
result does not mean the buffer is empty. For a requested count of at least
1 (on in-range indices, `ERR_SHOULD_WAIT` being negative) the result is
`ERR_SHOULD_WAIT` if and only if the buffer was empty. -/
theorem console_read_zero_count (ERR_SHOULD_WAIT : Int) (d d2 : Dev) (buf : Mem) (c : Nat)
    (hne : d.fifo.head ≠ d.fifo.tail) :
    (console_read ERR_SHOULD_WAIT d buf 0).ret = ERR_SHOULD_WAIT ∧
      (console_read ERR_SHOULD_WAIT d buf 0).buf = buf ∧
      (console_read ERR_SHOULD_WAIT d buf 0).dev = d ∧
      (d2.fifo.WF → ERR_SHOULD_WAIT < 0 → 1 ≤ c →
        ((console_read ERR_SHOULD_WAIT d2 buf c).ret = ERR_SHOULD_WAIT ↔
          d2.fifo.head = d2.fifo.tail)) := by
  refine ⟨?_, ?_, ?_, ?_⟩
  · simp [console_read, console_read_loop]
  · simp [console_read, console_read_loop]
  · simp [console_read, console_read_loop, hne]
  · intro hwf hneg hc
    rw [console_read_ret ERR_SHOULD_WAIT d2 buf c hwf, ← count_eq_zero_iff d2.fifo hwf]
    by_cases hz : min c d2.fifo.count = 0
    · rw [if_pos hz]
      constructor
      · intro _; omega
      · intro _; rfl
    · rw [if_neg hz]
      constructor
      · intro e; omega
      · intro e; rw [e] at hz; simp at hz

/-! ### Indices stay inside the array -/

theorem call_step_WF (E : Int) (d : Dev) (c : Call) (h : d.fifo.WF) :
    (call_step E d c).fifo.WF := by
  cases c with
  | fifo_write x => exact fifo_write_WF x d.fifo h
  | fifo_read out => exact (fifo_read_queue d.fifo out h).1
  | reader ret ch => exact debug_reader_iter_WF ret ch d h
  | console_read buf count => exact (console_read_transfer E d buf count h).2.2.2

theorem call_run_WF (E : Int) (calls : List Call) (d : Dev) (h : d.fifo.WF) :
    (call_run E calls d).fifo.WF := by
  induction calls generalizing d with
  | nil => exact h
  | cons c calls ih => exact ih (call_step E d c) (call_step_WF E d c h)

/-- C17: in every state reached from the initial state by `fifo_write`,
`fifo_read`, reader-task iterations and `console_read` calls, `head < 256` and
`tail < 256` and `data` has its 256 elements; so the accesses `data[head]` of
`fifo_write` and `data[tail]` of `fifo_read` are inside the array (the
`Option`-returning index is never `none`, and the byte `fifo_read` takes is
the stored one, not a default), and `head + 1` and `tail + 1` do not overflow
a `uint32_t`. -/
theorem indices_stay_in_range (E : Int) (calls : List Call) :
    (call_run E calls dev_init).fifo.head < FIFOSIZE ∧
      (call_run E calls dev_init).fifo.tail < FIFOSIZE ∧
      (call_run E calls dev_init).fifo.data.length = FIFOSIZE ∧
      (call_run E calls dev_init).fifo.data[(call_run E calls dev_init).fifo.head]? ≠ none ∧
      (call_run E calls dev_init).fifo.data[(call_run E calls dev_init).fifo.tail]?
        = some ((call_run E calls dev_init).fifo.data.getD
            (call_run E calls dev_init).fifo.tail 0) ∧
      (call_run E calls dev_init).fifo.head + 1 < 2 ^ 32 ∧
      (call_run E calls dev_init).fifo.tail + 1 < 2 ^ 32 := by
  obtain ⟨h1, h2, h3⟩ := call_run_WF E calls dev_init fifo_init_WF
  generalize (call_run E calls dev_init).fifo = s at h1 h2 h3
  have hh : s.head < s.data.length := by rw [h1]; exact h2
  have ht : s.tail < s.data.length := by rw [h1]; exact h3
  have hF : FIFOSIZE = 256 := rfl
  refine ⟨h2, h3, h1, ?_, ?_, by omega, by omega⟩
  · rw [List.getElem?_eq_getElem hh]; exact Option.some_ne_none _
  · rw [List.getD_eq_getElem?_getD, List.getElem?_eq_getElem ht]; rfl

/-! ### The theorems at concrete inputs -/

theorem wrap_fifo_WF : wrap_fifo.WF :=
  ⟨List.length_replicate _ _, by decide, by decide⟩

theorem one_fifo_WF : one_fifo.WF :=
  ⟨congrArg (· + 1) (List.length_replicate 255 (0 : Byte)), by decide, by decide⟩

theorem push_then_drain_returns_pushed_witness :
    (wrap_fifo.WF ∧ wrap_fifo.head = wrap_fifo.tail ∧
        [0x41, 0x42, 0x43, 0x44].length < FIFOSIZE - 1) ∧
      ∃ s', drain 5 (push_all [0x41, 0x42, 0x43, 0x44] wrap_fifo)
          = some ([0x41, 0x42, 0x43, 0x44], s') ∧
        (fifo_read s' 0).1 = -1 ∧ s'.head = s'.tail :=
  ⟨⟨wrap_fifo_WF, rfl, by decide⟩,
    push_then_drain_returns_pushed wrap_fifo [0x41, 0x42, 0x43, 0x44] 5 wrap_fifo_WF rfl
      (by decide) (by decide)⟩

theorem write_on_full_is_noop_witness :
    (full_fifo.full ∧ fifo_write 9 full_fifo = full_fifo) ∧
      (fifo_init.WF ∧ 255 < overlong.length ∧
        ∃ e', drain 256 (push_all overlong fifo_init) = some (overlong.take 255, e') ∧
          (fifo_read e' 0).1 = -1) :=
  ⟨⟨by decide, (write_on_full_is_noop full_fifo 9 fifo_init overlong 256).1 (by decide)⟩,
    ⟨fifo_init_WF, by rw [overlong_length]; decide,
      (write_on_full_is_noop full_fifo 9 fifo_init overlong 256).2 fifo_init_WF rfl
        (by rw [overlong_length]; decide) (by decide)⟩⟩

theorem console_read_returns_count_or_should_wait_witness :
    (scenario_dev.fifo.WF ∧ (-22 : Int) < 0 ∧
        (console_read (-22) scenario_dev (fun _ => 0) 2).ret ≠ 0) ∧
      (dev_init.fifo.head = dev_init.fifo.tail ∧
        (console_read (-22) dev_init (fun _ => 0) 5).ret = -22) :=
  ⟨⟨scenario_dev_WF, by decide,
      (console_read_returns_count_or_should_wait (-22) scenario_dev (fun _ => 0) 2
        scenario_dev_WF (by decide)).2.2.1⟩,
    ⟨rfl,
      (console_read_returns_count_or_should_wait (-22) dev_init (fun _ => 0) 5
        fifo_init_WF (by decide)).2.1 rfl⟩⟩

theorem console_read_copies_oldest_first_witness :
    (scenario_dev.fifo.WF ∧ scenario_dev.fifo.contents = [0x41, 0x42, 0x43]) ∧
      (console_read (-22) scenario_dev (fun _ => 0) 2).dev.fifo.contents
        = [0x41, 0x42, 0x43].drop (min 2 [(0x41 : Byte), 0x42, 0x43].length) :=
  ⟨⟨scenario_dev_WF, scenario_dev_contents⟩,
    (console_read_copies_oldest_first (-22) scenario_dev (fun _ => 0) (fun _ => 0) 2
      [0x41, 0x42, 0x43] scenario_dev_WF scenario_dev_contents).1.2.2⟩

theorem readable_iff_nonempty_invariant_witness :
    dev_init.ready_iff_nonempty ∧
      (debug_reader_iter 1 0x41 dev_init).ready_iff_nonempty ∧
      (console_read (-22) dev_init (fun _ => 0) 0).dev.ready_iff_nonempty :=
  ⟨dev_init_ready,
    (readable_iff_nonempty_invariant (-22) dev_init 1 0x41 (fun _ => 0) 0 []).2.1
      dev_init_ready,
    (readable_iff_nonempty_invariant (-22) dev_init 1 0x41 (fun _ => 0) 0 []).2.2.1
      dev_init_ready⟩

theorem reads_deliver_fifo_order_witness :
    (-22 : Int) < 0 ∧
      (delivered (-22) [Op.reader 1 0x41, Op.reader 1 0x42, Op.read (fun _ => 0) 1]
          dev_init).Sublist
        (pushed [Op.reader 1 0x41, Op.reader 1 0x42, Op.read (fun _ => 0) 1]) :=
  ⟨by decide,
    (reads_deliver_fifo_order (-22)
      [Op.reader 1 0x41, Op.reader 1 0x42, Op.read (fun _ => 0) 1] (by decide)).2.2⟩

theorem holds_at_most_255_witness :
    (List.replicate 255 (1 : Byte)).length = FIFOSIZE - 1 ∧
      ∃ s', drain FIFOSIZE
          (fifo_run ((List.replicate 255 (1 : Byte)).map FifoOp.write) fifo_init)
        = some (List.replicate 255 1, s') :=
  ⟨List.length_replicate _ _,
    (holds_at_most_255 [] (List.replicate 255 1)).2 (List.length_replicate _ _)⟩

theorem push_on_full_drops_newest_witness :
    (full_fifo.full ∧ (fifo_write 9 full_fifo).contents = full_fifo.contents) ∧
      (fifo_init.WF ∧ 255 < overlong.length ∧
        (drain 256 (push_all overlong fifo_init)).map Prod.fst = some (overlong.take 255)) :=
  ⟨⟨by decide, ((push_on_full_drops_newest full_fifo 9 fifo_init overlong 256).1
      (by decide)).2⟩,
    ⟨fifo_init_WF, by rw [overlong_length]; decide,
      ((push_on_full_drops_newest full_fifo 9 fifo_init overlong 256).2 fifo_init_WF rfl
        (by rw [overlong_length]; decide) (by decide)).1⟩⟩

theorem fifo_read_pops_oldest_witness :
    (one_fifo.WF ∧ one_fifo.head ≠ one_fifo.tail) ∧
      one_fifo.data[one_fifo.tail]? = some (fifo_read one_fifo 0).2.1 ∧
      one_fifo.contents = (fifo_read one_fifo 0).2.1 :: (fifo_read one_fifo 0).2.2.contents :=
  ⟨⟨one_fifo_WF, by decide⟩,
    (fifo_read_pops_oldest one_fifo 0 one_fifo_WF).2.2 (by decide)⟩

theorem console_bind_outcomes_witness :
    (-4 : Int) ≠ NO_ERROR ∧
      (console_bind (-4) false 0 0).1 = -4 ∧
      (console_bind (-4) true (-2) 0).1 = -2 ∧
      (console_bind (-4) true 0 (-3)).1 = -3 ∧
      ((console_bind (-4) true 0 (-3)).1 ≠ NO_ERROR ∧
        (console_bind (-4) true 0 (-3)).2.count .free = (if true = true then 1 else 0)) ∧
      ((console_bind (-4) true 0 0).1 = NO_ERROR ∧
        (console_bind (-4) true 0 0).2.count .thrd_create = 1) :=
  ⟨by decide,
    (console_bind_outcomes (-4) false 0 0 (by decide)).1 rfl,
    (console_bind_outcomes (-4) true (-2) 0 (by decide)).2.1 rfl (by decide),
    (console_bind_outcomes (-4) true 0 (-3) (by decide)).2.2.1 rfl rfl (by decide),
    ⟨by decide, ((console_bind_outcomes (-4) true 0 (-3) (by decide)).2.2.2.2.1 (by decide)).1⟩,
    ⟨by decide, ((console_bind_outcomes (-4) true 0 0 (by decide)).2.2.2.2.2 (by decide)).1⟩⟩

theorem reader_iteration_effect_witness :
    ((0 : Int) ≠ 1 ∧ debug_reader_iter 0 0x41 one_dev = one_dev) ∧
      ((dev_init.fifo.head = dev_init.fifo.tail ∧ dev_init.fifo.WF) ∧
        (debug_reader_iter 1 0x41 dev_init).readable = true ∧
        (debug_reader_iter 1 0x41 dev_init).fifo.contents = [0x41]) ∧
      ((one_dev.fifo.head ≠ one_dev.fifo.tail ∧ ¬ one_dev.fifo.full ∧ one_dev.fifo.WF) ∧
        (debug_reader_iter 1 0x42 one_dev).readable = one_dev.readable ∧
        (debug_reader_iter 1 0x42 one_dev).fifo.contents = one_dev.fifo.contents ++ [0x42]) ∧
      (full_dev.fifo.full ∧ debug_reader_iter 1 0x43 full_dev = full_dev) :=
  ⟨⟨by decide, (reader_iteration_effect 0 0x41 one_dev).1 (by decide)⟩,
    ⟨⟨rfl, fifo_init_WF⟩,
      ((reader_iteration_effect 1 0x41 dev_init).2.1 rfl).1,
      ((reader_iteration_effect 1 0x41 dev_init).2.1 rfl).2.2 fifo_init_WF⟩,
    ⟨⟨by decide, by decide, one_fifo_WF⟩,
      ((reader_iteration_effect 1 0x42 one_dev).2.2.1 (by decide) (by decide)).1,
      ((reader_iteration_effect 1 0x42 one_dev).2.2.1 (by decide) (by decide)).2.2
        one_fifo_WF⟩,
    ⟨by decide, (reader_iteration_effect 1 0x43 full_dev).2.2.2 (by decide)⟩⟩

theorem console_read_loop_terminates_witness :
    (one_fifo.WF ∧ FIFOSIZE ≤ 256) ∧
      console_read_loop_bounded 256 SIZE_MAX one_fifo (fun _ => 0) 0
        = some (console_read_loop SIZE_MAX one_fifo (fun _ => 0) 0) ∧
      (console_read_loop SIZE_MAX one_fifo (fun _ => 0) 0).2.2 ≤ min SIZE_MAX 255 :=
  ⟨⟨one_fifo_WF, by decide⟩,
    (console_read_loop_terminates SIZE_MAX 256 one_fifo (fun _ => 0) one_fifo_WF
      (by decide)).1,
    (console_read_loop_terminates SIZE_MAX 256 one_fifo (fun _ => 0) one_fifo_WF
      (by decide)).2.2.1⟩

theorem fifo_refines_list_queue_witness :
    one_fifo.WF ∧
      (fifo_write 0x42 one_fifo).contents = queue_write 0x42 one_fifo.contents ∧
      fifo_results [FifoOp.write 0x41, FifoOp.read 0, FifoOp.read 0] fifo_init
        = queue_results [FifoOp.write 0x41, FifoOp.read 0, FifoOp.read 0] [] :=
  ⟨one_fifo_WF,
    (fifo_refines_list_queue one_fifo 0x42 0
      [FifoOp.write 0x41, FifoOp.read 0, FifoOp.read 0] one_fifo_WF).2.1,
    (fifo_refines_list_queue one_fifo 0x42 0
      [FifoOp.write 0x41, FifoOp.read 0, FifoOp.read 0] one_fifo_WF).2.2.2.2.1⟩

theorem console_read_zero_count_witness :
    (one_dev.fifo.head ≠ one_dev.fifo.tail ∧
        (console_read (-22) one_dev (fun _ => 0) 0).ret = -22 ∧
        (console_read (-22) one_dev (fun _ => 0) 0).dev = one_dev) ∧
      ((fifo_init.WF ∧ (-22 : Int) < 0 ∧ 1 ≤ 1) ∧
        ((console_read (-22) dev_init (fun _ => 0) 1).ret = -22 ↔
          dev_init.fifo.head = dev_init.fifo.tail)) :=
  ⟨⟨by decide,
      (console_read_zero_count (-22) one_dev dev_init (fun _ => 0) 1 (by decide)).1,
      (console_read_zero_count (-22) one_dev dev_init (fun _ => 0) 1 (by decide)).2.2.1⟩,
    ⟨⟨fifo_init_WF, by decide, by decide⟩,
      (console_read_zero_count (-22) one_dev dev_init (fun _ => 0) 1 (by decide)).2.2.2
        fifo_init_WF (by decide) (by decide)⟩⟩

end Console
